import Mathlib

/- Verification of the ssg document-transformation pipeline: a shallow embedding
   of the LaTeX environment filter, the Markdown block preprocessors and the math
   extraction step (src/formatted_text/pandoc_latex_filters.rs,
   src/formatted_text/formatted_text.rs, src/formatted_text/markdown_expandable.rs,
   src/config.rs), with theorems settling the specification claims.

   Strings are modelled as `List Char`; brace, apostrophe and quote characters in
   literals are written with `\x7b`, `\x7d`, `\x27` escapes. Rust's Unicode-aware
   `\w` and whitespace classes are modelled on the ASCII range. -/

namespace Ssg

/-- Models the regex class `\w` (ASCII range): alphanumeric or underscore. -/
def isWordChar (c : Char) : Bool := c.isAlphanum || c = '_'

/-- Models the regex character class `[\w:-]`. -/
def isLabelChar (c : Char) : Bool := isWordChar c || c = ':' || c = '-'

/-- Match a literal list of characters at the head of the input, returning the rest. -/
def dropLit : List Char → List Char → Option (List Char)
  | [], cs => some cs
  | _ :: _, [] => none
  | p :: ps, c :: cs => if c = p then dropLit ps cs else none

/-- Match `NAME}` where NAME is a nonempty run of characters satisfying `p`.
    This is the forced shape of the greedy regex `p+\}` since `}` never
    satisfies `p` (no backtracking can succeed otherwise). -/
def matchName (p : Char → Bool) (cs : List Char) : Option (List Char × List Char) :=
  match cs.dropWhile p with
  | '\x7d' :: rest => if (cs.takeWhile p).isEmpty then none else some (cs.takeWhile p, rest)
  | _ => none

/-- Match one `{...}` brace group with nonempty contents free of `}`
    (regex `\{[^}]+\}`). -/
def matchGroup (cs : List Char) : Option (List Char × List Char) :=
  match cs with
  | '\x7b' :: cs2 =>
    match cs2.dropWhile (· != '\x7d') with
    | '\x7d' :: rest =>
      if (cs2.takeWhile (· != '\x7d')).isEmpty then none
      else some (cs2.takeWhile (· != '\x7d'), rest)
    | _ => none
  | _ => none

/-- Greedily match one or more brace groups (regex `(\{[^}]+\})+`), fuel-bounded.
    Fuel `|cs|` is always sufficient since each group consumes at least 3 characters. -/
def matchGroupsF : Nat → List Char → Option (List (List Char) × List Char)
  | 0, _ => none
  | fuel + 1, cs =>
    match matchGroup cs with
    | none => none
    | some (g, rest) =>
      match matchGroupsF fuel rest with
      | some (gs, rest2) => some (g :: gs, rest2)
      | none => some ([g], rest)

/-- One match of the combined filter regex built in
    `EnvFilter::generate_theorem_regex`:
    `\label\{[\w:-]+\}|\ref\{[\w:-]+\}|\begin(\{[^}]+\})+|\end\{\w+\}`. -/
inductive Tok where
  | lab (name : List Char)
  | ref (name : List Char)
  | beg (groups : List (List Char))
  | fin (name : List Char)
deriving DecidableEq, Repr

def litLabel : List Char := "\\label\x7b".data

def litRef : List Char := "\\ref\x7b".data

def litBegin : List Char := "\\begin".data

def litBeginBrace : List Char := "\\begin\x7b".data

def litEnd : List Char := "\\end\x7b".data

/-- Try to match the combined regex at the current position. Alternatives are
    tried in the regex's leftmost-first order; the four alternatives start with
    pairwise incompatible literals, so when one literal matches but its tail
    fails, no other alternative can match at the same position. -/
def matchAt (cs : List Char) : Option (Tok × List Char) :=
  match dropLit litLabel cs with
  | some rest =>
    match matchName isLabelChar rest with
    | some (n, rest2) => some (.lab n, rest2)
    | none => none
  | none =>
  match dropLit litRef cs with
  | some rest =>
    match matchName isLabelChar rest with
    | some (n, rest2) => some (.ref n, rest2)
    | none => none
  | none =>
  match dropLit litBegin cs with
  | some rest =>
    match matchGroupsF rest.length rest with
    | some (gs, rest2) => some (.beg gs, rest2)
    | none => none
  | none =>
  match dropLit litEnd cs with
  | some rest =>
    match matchName isWordChar rest with
    | some (n, rest2) => some (.fin n, rest2)
    | none => none
  | none => none

/-- A scanned input: regex matches interleaved with unmatched characters. -/
inductive Item where
  | chr (c : Char)
  | tok (t : Tok)
deriving DecidableEq, Repr

/-- Fuel-bounded scan producing the sequence of regex matches interleaved with
    the text between them, in input order (models `Regex::captures_iter`
    together with the gap-copying in the preprocess loop). -/
def lexF : Nat → List Char → List Item
  | 0, _ => []
  | _ + 1, [] => []
  | fuel + 1, c :: cs =>
    match matchAt (c :: cs) with
    | some (t, rest) => .tok t :: lexF fuel rest
    | none => .chr c :: lexF fuel cs

def lex (cs : List Char) : List Item := lexF cs.length cs

def groupRaw (g : List Char) : List Char := '\x7b' :: g ++ ['\x7d']

/-- The exact text of the regex match (`caps.get(0)`), reconstructed. -/
def Tok.raw : Tok → List Char
  | .lab n => litLabel ++ n ++ ['\x7d']
  | .ref n => litRef ++ n ++ ['\x7d']
  | .beg gs => litBegin ++ (gs.map groupRaw).flatten
  | .fin n => litEnd ++ n ++ ['\x7d']

def itemText : Item → List Char
  | .chr c => [c]
  | .tok t => t.raw

def itemsText (items : List Item) : List Char := (items.map itemText).flatten

/-- src/formatted_text/formatted_text.rs: a registered theorem kind. -/
structure Theorem where
  name : String
  label : String
  numbered : Bool
deriving DecidableEq, Repr

/-- src/formatted_text/formatted_text.rs: `Theorem::label(counter)` — the display
    label followed by the counter when numbered, the bare display label otherwise. -/
def Theorem.labelFor (t : Theorem) (counter : Nat) : String :=
  if t.numbered then t.label ++ " " ++ Nat.repr counter else t.label

/-- Lookup in the map built by `theorems.into_iter().map(|t| (t.name, t)).collect()`:
    for duplicate names the last list entry wins. -/
def findTheorem (ts : List Theorem) (name : String) : Option Theorem :=
  match ts with
  | [] => none
  | t :: rest =>
    match findTheorem rest name with
    | some r => some r
    | none => if t.name = name then some t else none

/-- Models `str::trim_start_matches(lit)`: repeatedly strip the literal from the
    front. Fuel `|cs|` is always sufficient since each strip is nonempty. -/
def dropLitStarF (fuel : Nat) (lit cs : List Char) : List Char :=
  match fuel with
  | 0 => cs
  | fuel + 1 =>
    match dropLit lit cs with
    | some rest => dropLitStarF fuel lit rest
    | none => cs

/-- Environment name of a `\begin` match (preprocess lines 67-72): strip repeated
    `\begin{` prefixes from the whole match text, then take the part before the
    first `}` (`splitn(2, '}').next()`). -/
def beginEnvName (gs : List (List Char)) : String :=
  let s := Tok.raw (.beg gs)
  ⟨(dropLitStarF s.length litBeginBrace s).takeWhile (· != '\x7d')⟩

/-- The scan state of one `EnvFilter::preprocess` call: output accumulator,
    theorem counter, environment stack, and the `EnvFilter` label maps that the
    scan mutates (`theorem_labels` as an insert-at-front association list,
    `equation_labels` as a membership list). -/
structure St where
  counter : Nat
  stack : List String
  tlabels : List (String × String)
  elabels : List String
  out : List Char
deriving DecidableEq, Repr

/-- How a preprocess scan aborts: the `Err` return for mismatched environment
    tags, or the `env_stack.pop().unwrap()` panic on an empty stack. -/
inductive PErr where
  | mismatch (opened closed : String)
  | emptyPop
deriving DecidableEq, Repr

/-- The error text: for `mismatch` the exact Rust `Err` message; `emptyPop`
    models a panic, which has no `Err` message, so it gets a fixed description. -/
def PErr.msg : PErr → String
  | .mismatch a b =>
    "Mismatched environment tags: \\begin\x7b" ++ a ++ "\x7d and \\end\x7b" ++ b ++ "\x7d"
  | .emptyPop => "panic: pop from empty environment stack"

/-- Association-list lookup; with insertion at the front this models
    `HashMap::insert` overwrite followed by key lookup. -/
def lookupT (m : List (String × String)) (k : String) : Option String :=
  match m with
  | [] => none
  | (k2, v) :: rest => if k2 = k then some v else lookupT rest k

/-- The inline bold marker emitted at the `\begin` of a registered theorem kind:
    `\textbf{<display label (+ counter if numbered)>}. `. -/
def markerChars (t : Theorem) (c : Nat) : List Char :=
  "\\textbf\x7b".data ++ (t.labelFor c).data ++ "\x7d. ".data

/-- Process one regex match: the body of the `for caps in ...` loop of
    `EnvFilter::preprocess`. -/
def step (ts : List Theorem) (st : St) : Tok → Except PErr St
  | .beg gs =>
    let env := beginEnvName gs
    let st1 := { st with stack := env :: st.stack }
    match findTheorem ts env with
    | some t =>
      let c := if t.numbered then st1.counter + 1 else st1.counter
      .ok { st1 with counter := c, out := st1.out ++ markerChars t c }
    | none =>
      if env = "equation" then
        .ok { st1 with out := st1.out ++ "$$\\begin\x7bequation\x7d".data }
      else if env = "problem" || env = "solution" then
        .ok { st1 with out := st1.out ++ ("\\begin\x7b".data ++ env.data ++ ['\x7d']) }
      else
        .ok { st1 with out := st1.out ++ Tok.raw (.beg gs) }
  | .lab n =>
    let name : String := ⟨n⟩
    match st.stack with
    | env :: _ =>
      if (findTheorem ts env).isSome then
        .ok { st with tlabels := (name, Nat.repr st.counter) :: st.tlabels,
                      out := st.out ++ Tok.raw (.lab n) }
      else if env = "equation" then
        .ok { st with elabels := name :: st.elabels, out := st.out ++ Tok.raw (.lab n) }
      else
        .ok { st with out := st.out ++ Tok.raw (.lab n) }
    | [] => .ok { st with out := st.out ++ Tok.raw (.lab n) }
  | .ref n =>
    let name : String := ⟨n⟩
    match lookupT st.tlabels name with
    | some v =>
      .ok { st with out := st.out ++ ("\\href\x7b#".data ++ n ++ "\x7d\x7b".data ++ v.data ++ ['\x7d']) }
    | none =>
      if st.elabels.contains name then
        .ok { st with out := st.out ++ ("(EQREFBEGIN)".data ++ n ++ "(EQREFEND)".data) }
      else
        .ok { st with out := st.out ++ Tok.raw (.ref n) }
  | .fin n =>
    let env : String := ⟨n⟩
    match st.stack with
    | [] => .error .emptyPop
    | top :: rest =>
      if env = top then
        if (findTheorem ts env).isSome then
          .ok { st with stack := rest, out := st.out ++ ['\n'] }
        else if env = "equation" then
          .ok { st with stack := rest, out := st.out ++ "\\end\x7bequation\x7d$$".data }
        else
          .ok { st with stack := rest, out := st.out ++ Tok.raw (.fin n) }
      else .error (.mismatch top env)

/-- The full scan loop: process matches in order, copying unmatched text. -/
def runSt (ts : List Theorem) (st : St) : List Item → Except PErr St
  | [] => .ok st
  | .chr c :: items => runSt ts { st with out := st.out ++ [c] } items
  | .tok t :: items =>
    match step ts st t with
    | .ok st2 => runSt ts st2 items
    | .error e => .error e

/-- Initial scan state: counter 0, stack seeded with the sentinel `document`. -/
def initSt : St := { counter := 0, stack := ["document"], tlabels := [], elabels := [], out := [] }

/-- `EnvFilter::preprocess`, with the final filter state exposed. -/
def preprocessSt (ts : List Theorem) (input : String) : Except PErr St :=
  runSt ts initSt (lex input.data)

/-- `EnvFilter::preprocess`, projected to its `Result<String, String>` output. -/
def preprocess (ts : List Theorem) (input : String) : Except PErr String :=
  (preprocessSt ts input).map fun st => ⟨st.out⟩

/- ===== EnvFilter::clean_labels and postprocess ===== -/

/-- One match of the clean_labels regex
    `<span id="([\w:-]+)" label="([\w:-]+)">\[[\w:-]+\]</span>`:
    the two captures and the bracketed text. -/
structure Span where
  sid : List Char
  slab : List Char
  sbr : List Char
deriving DecidableEq, Repr

def litSpanId : List Char := "<span id=\"".data

def litSpanLabel : List Char := "\" label=\"".data

def litSpanMid : List Char := "\">[".data

def litSpanClose : List Char := "]</span>".data

/-- Match a nonempty greedy run of characters satisfying `p` followed by the
    literal `lit`. Faithful to the regex because in every use the first
    character of `lit` does not satisfy `p`, so backtracking cannot shorten
    the run. -/
def takeName (p : Char → Bool) (lit : List Char) (cs : List Char) : Option (List Char × List Char) :=
  if (cs.takeWhile p).isEmpty then none
  else
    match dropLit lit (cs.dropWhile p) with
    | some rest => some (cs.takeWhile p, rest)
    | none => none

/-- Try to match the clean_labels span regex at the current position. -/
def matchSpan (cs : List Char) : Option (Span × List Char) :=
  match dropLit litSpanId cs with
  | none => none
  | some r1 =>
    match takeName isLabelChar litSpanLabel r1 with
    | none => none
    | some (i, r2) =>
      match takeName isLabelChar litSpanMid r2 with
      | none => none
      | some (l, r3) =>
        match takeName isLabelChar litSpanClose r3 with
        | none => none
        | some (b, r4) => some ({ sid := i, slab := l, sbr := b }, r4)

/-- The exact matched text of a span. -/
def spanRaw (sp : Span) : List Char :=
  litSpanId ++ sp.sid ++ litSpanLabel ++ sp.slab ++ litSpanMid ++ sp.sbr ++ litSpanClose

/-- The replacement emitted for a recorded label:
    `<span id="{id}" label="{label}"></span>`. -/
def spanCleaned (sp : Span) : List Char :=
  litSpanId ++ sp.sid ++ litSpanLabel ++ sp.slab ++ "\"></span>".data

/-- The `Regex::replace_all` scan of `EnvFilter::clean_labels`, fuel-bounded:
    at each position, a match whose id is a recorded theorem label is replaced
    by the bracket-free span, any other match is kept verbatim, all other text
    is copied. `labels` is the key set of `theorem_labels`. -/
def cleanF (labels : List String) : Nat → List Char → List Char
  | 0, _ => []
  | _ + 1, [] => []
  | fuel + 1, c :: cs =>
    match matchSpan (c :: cs) with
    | some (sp, rest) =>
      (if labels.contains (⟨sp.sid⟩ : String) then spanCleaned sp else spanRaw sp)
        ++ cleanF labels fuel rest
    | none => c :: cleanF labels fuel cs

def cleanL (labels : List String) (cs : List Char) : List Char := cleanF labels cs.length cs

/-- `EnvFilter::clean_labels` (the postprocess label-cleanup step). -/
def clean_labels (labels : List String) (input : String) : String := ⟨cleanL labels input.data⟩

/-- Models `str::replace`: replace every non-overlapping occurrence of `pat`
    (nonempty in all uses), scanning left to right. Fuel-bounded; fuel `|cs|`
    is always sufficient since each step consumes at least one character. -/
def replaceAllF (pat rep : List Char) : Nat → List Char → List Char
  | 0, cs => cs
  | fuel + 1, cs =>
    match cs with
    | [] => []
    | c :: cs2 =>
      match dropLit pat cs with
      | some rest => rep ++ replaceAllF pat rep fuel rest
      | none => c :: replaceAllF pat rep fuel cs2

def replaceAll (pat rep cs : List Char) : List Char := replaceAllF pat rep cs.length cs

/-- `EnvFilter::postprocess`: clean_labels, then restore deferred equation
    references and unwrap the synthetic display-math delimiters. -/
def postprocess (labels : List String) (input : String) : String :=
  let r1 := cleanL labels input.data
  let r2 := replaceAll "(EQREFBEGIN)".data "\\ref\x7b".data r1
  let r3 := replaceAll "(EQREFEND)".data ['\x7d'] r2
  let r4 := replaceAll "$$\\begin\x7bequation\x7d".data "\\begin\x7bequation\x7d".data r3
  let r5 := replaceAll "\\end\x7bequation\x7d$$".data "\\end\x7bequation\x7d".data r4
  ⟨r5⟩

/-- Result of one whole fragment conversion; `panicked` models a Rust panic
    (which produces no `Result` at all). -/
inductive ConvRes where
  | ok (html : String)
  | err (msg : String)
  | panicked
deriving DecidableEq, Repr

/-- `latex_to_html`, with the external pandoc invocation abstracted as `render`
    (the `run_with_timeout` call: captured stdout, or an error for spawn
    failure / non-zero exit / timeout). A preprocess `Err` propagates via `?`
    and aborts before the renderer runs; a preprocess panic aborts everything.
    Postprocess runs on the renderer output with the preprocess filter state. -/
def latex_to_html (render : String → ConvRes) (ts : List Theorem) (input : String) : ConvRes :=
  match preprocessSt ts input with
  | .error (.mismatch a b) => .err (PErr.msg (.mismatch a b))
  | .error .emptyPop => .panicked
  | .ok st =>
    match render (⟨st.out⟩ : String) with
    | .err m => .err m
    | .panicked => .panicked
    | .ok html => .ok (postprocess (st.tlabels.map Prod.fst) html)

/- ===== extract_math_segments / restore_math_segments ===== -/

/-- The inner closing-delimiter search of `extract_math_segments` (the `j`
    loop): a backslash skips the following character; `dl` dollar signs end the
    scan. Returns the body before the closing delimiter and the text after it. -/
def seekClose (dl : Nat) : List Char → Option (List Char × List Char)
  | [] => none
  | '\\' :: c :: rest => (seekClose dl rest).map fun p => ('\\' :: c :: p.1, p.2)
  | '$' :: rest =>
    if dl = 1 then some ([], rest)
    else
      match rest with
      | '$' :: r2 => some ([], r2)
      | _ => (seekClose dl rest).map fun p => ('$' :: p.1, p.2)
  | c :: rest => (seekClose dl rest).map fun p => (c :: p.1, p.2)

def mathPlaceholder (n : Nat) : List Char := "MATH_SEGMENT_PLACEHOLDER_".data ++ (Nat.repr n).data

/-- The main scan of `extract_math_segments`, fuel-bounded: `prev` is the
    previously scanned character (for the escaped-`$` check), `n` the number of
    segments already extracted. Returns the output text and the segments. -/
def emsF : Nat → Option Char → Nat → List Char → List Char × List String
  | 0, _, _, _ => ([], [])
  | _ + 1, _, _, [] => ([], [])
  | fuel + 1, prev, n, '$' :: rest =>
    if prev = some '\\' then
      let p := emsF fuel (some '$') n rest
      ('$' :: p.1, p.2)
    else
      let dl : Nat := match rest with | '$' :: _ => 2 | _ => 1
      match seekClose dl (rest.drop (dl - 1)) with
      | some (b, r) =>
        let seg : List Char := List.replicate dl '$' ++ b ++ List.replicate dl '$'
        let p := emsF fuel (some '$') (n + 1) r
        (mathPlaceholder n ++ p.1, (⟨seg⟩ : String) :: p.2)
      | none =>
        let p := emsF fuel (some '$') n rest
        ('$' :: p.1, p.2)
  | fuel + 1, _, n, c :: rest =>
    let p := emsF fuel (some c) n rest
    (c :: p.1, p.2)

/-- `extract_math_segments`: replace `$...$` / `$$...$$` spans by placeholders. -/
def extract_math_segments (md : String) : String × List String :=
  let p := emsF md.data.length none 0 md.data
  (⟨p.1⟩, p.2)

/-- `restore_math_segments`: substitute each placeholder back, in index order. -/
def restoreF (html : List Char) (segs : List String) (i : Nat) : List Char :=
  match segs with
  | [] => html
  | s :: rest => restoreF (replaceAll (mathPlaceholder i) s.data html) rest (i + 1)

def restore_math_segments (html : String) (segs : List String) : String :=
  ⟨restoreF html.data segs 0⟩

/-- src/config.rs: the serde default of the math-handling flag
    (`default_raw_math_blocks`; the derived `Default` also gives `false`). -/
def default_raw_math_blocks : Bool := false

/-- The math-handling branch of `markdown_to_html` (formatted_text.rs lines
    92-96). The flag is called `escape_markdown_in_math` at the use site and
    `raw_math_blocks` in src/config.rs (the same configuration flag under two
    names in the snapshot): when it is true the text goes to the Markdown
    engine untouched; when it is false math spans are extracted first. -/
def mathPhase (escape_markdown_in_math : Bool) (md : String) : String × List String :=
  if escape_markdown_in_math then (md, []) else extract_math_segments md

/- ===== Markdown block preprocessors (markdown_expandable.rs) ===== -/

/-- `str::split_inclusive('\n')`: segments each keeping their terminator;
    a final segment without `\n` is kept, an empty tail is not a segment. -/
def splitIncl : List Char → List (List Char)
  | [] => []
  | '\n' :: cs => ['\n'] :: splitIncl cs
  | c :: cs =>
    match splitIncl cs with
    | [] => [[c]]
    | s :: ss => (c :: s) :: ss

/-- One line as produced by `str::lines`: strip the trailing `\n`, and a `\r`
    just before it; a final line without `\n` keeps any trailing `\r`. -/
def lineOf (seg : List Char) : List Char :=
  match seg.reverse with
  | '\n' :: '\r' :: r => r.reverse
  | '\n' :: r => r.reverse
  | _ => seg

/-- Models `str::lines()`. -/
def rustLines (cs : List Char) : List (List Char) := (splitIncl cs).map lineOf

/-- Models `str::trim_start` (ASCII whitespace). -/
def trimStartL (cs : List Char) : List Char := cs.dropWhile Char.isWhitespace

/-- Models `str::trim` (ASCII whitespace). -/
def trimL (cs : List Char) : List Char :=
  ((cs.dropWhile Char.isWhitespace).reverse.dropWhile Char.isWhitespace).reverse

def startsWithL (pat cs : List Char) : Bool := (dropLit pat cs).isSome

/-- Largest index of `c` in `l`. -/
def lastIdxOf (c : Char) (l : List Char) : Option Nat :=
  match l.reverse.findIdx? (· == c) with
  | some j => some (l.length - 1 - j)
  | none => none

/-- `extract_class`: first capture of the regex `\[([^"]+)\]`, scanning left to
    right. At a `[`, the greedy `[^"]+` runs up to the first `"` (or the end)
    and backtracks to the last `]` strictly inside that run; the capture must
    be nonempty, otherwise the scan moves on. -/
def extractClassFrom : List Char → Option (List Char)
  | [] => none
  | '[' :: rest =>
    let r := rest.takeWhile (· != '"')
    match lastIdxOf ']' r with
    | some k => if 1 ≤ k then some (r.take k) else extractClassFrom rest
    | none => extractClassFrom rest
  | _ :: rest => extractClassFrom rest

def extract_class (line : List Char) : Option (List Char) := extractClassFrom line

def joinNlL (lines : List (List Char)) : List Char := (lines.map (· ++ ['\n'])).flatten

def fenceLine (l : List Char) : Bool := startsWithL ":::".data (trimStartL l)

/-- The `preprocess_cards` loop over lines, fuel-bounded (fuel = number of
    lines; every iteration consumes at least the current line). -/
def cardsF : Nat → List (List Char) → List Char
  | 0, _ => []
  | _ + 1, [] => []
  | fuel + 1, line :: rest =>
    if startsWithL ":::card".data (trimStartL line) then
      let cls := (extract_class line).getD []
      let body := rest.takeWhile (fun l => !fenceLine l)
      let rest2 := (rest.dropWhile (fun l => !fenceLine l)).tail
      "<div class=\"card ".data ++ cls ++ "\">".data ++ ['\n'] ++ ['\n']
        ++ joinNlL body ++ "  </div>\n\n".data ++ cardsF fuel rest2
    else
      line ++ ['\n'] ++ cardsF fuel rest

/-- `preprocess_cards`. -/
def preprocess_cards (md : String) : String :=
  ⟨cardsF (rustLines md.data).length (rustLines md.data)⟩

/-- The toggle link substituted for each `[...]` span of the heading line:
    `<a class="expand-link" data-bs-toggle="collapse" href='#{id}'>{cap}</a>`. -/
def expandAnchor (id cap : List Char) : List Char :=
  "<a class=\"expand-link\" data-bs-toggle=\"collapse\" href=\x27#".data ++ id
    ++ "\x27>".data ++ cap ++ "</a>".data

/-- `Regex::replace_all` of `\[([^\]]+)\]` on the heading line: each nonempty
    bracketed span becomes a toggle link. Fuel-bounded. -/
def replaceBracketsF (id : List Char) : Nat → List Char → List Char
  | 0, cs => cs
  | _ + 1, [] => []
  | fuel + 1, '[' :: rest =>
    let cap := rest.takeWhile (· != ']')
    match rest.dropWhile (· != ']') with
    | ']' :: rest2 =>
      if cap.isEmpty then '[' :: replaceBracketsF id fuel rest
      else expandAnchor id cap ++ replaceBracketsF id fuel rest2
    | _ => '[' :: replaceBracketsF id fuel rest
  | fuel + 1, c :: rest => c :: replaceBracketsF id fuel rest

/-- The heading, toggle and opening wrappers emitted for one expandable block. -/
def expandableHeader (heading id : List Char) : List Char :=
  heading ++ "\n\n<div class=\"collapse\" id=\"".data ++ id
    ++ "\">\n  <div class=\"card card-body\">\n".data

/-- The `preprocess_expandables` loop over lines, fuel-bounded; `ctr` is the
    per-document expandable id counter. -/
def expF : Nat → Nat → List (List Char) → List Char
  | 0, _, _ => []
  | _ + 1, _, [] => []
  | fuel + 1, ctr, line :: rest =>
    if startsWithL ":::expandable".data (trimStartL line) then
      let heading := trimL (rest.headD [])
      let ctr2 := ctr + 1
      let id := "expand-".data ++ (Nat.repr ctr2).data
      let heading2 := replaceBracketsF id heading.length heading
      let rest1 := rest.tail
      let body := rest1.takeWhile (fun l => !fenceLine l)
      let rest2 := (rest1.dropWhile (fun l => !fenceLine l)).tail
      expandableHeader heading2 id ++ joinNlL body ++ "  </div>\n</div>\n".data
        ++ expF fuel ctr2 rest2
    else
      line ++ ['\n'] ++ expF fuel ctr rest

/-- `preprocess_expandables`. -/
def preprocess_expandables (md : String) : String :=
  ⟨expF (rustLines md.data).length 0 (rustLines md.data)⟩

/-- `markdown_to_html`, with the comrak Markdown engine abstracted as `engine`:
    block preprocessors, optional math extraction, the engine, then math
    restoration. -/
def markdown_to_html (engine : String → String) (escape_markdown_in_math : Bool)
    (md : String) : String :=
  let md1 := preprocess_expandables md
  let md2 := preprocess_cards md1
  let p := mathPhase escape_markdown_in_math md2
  let html := engine p.1
  if p.2.isEmpty then html else restore_math_segments html p.2

/- ===== Pure stack simulation of the scan (specification device) ===== -/

/-- Pure begin/end matching over a scanned item list: a `\begin` pushes its
    environment name, an `\end` must find the same name on top of the stack and
    pops it; `none` when an `\end` mismatches or the stack is empty. -/
def stackSim (stk : List String) : List Item → Option (List String)
  | [] => some stk
  | .chr _ :: items => stackSim stk items
  | .tok (.beg gs) :: items => stackSim (beginEnvName gs :: stk) items
  | .tok (.lab _) :: items => stackSim stk items
  | .tok (.ref _) :: items => stackSim stk items
  | .tok (.fin n) :: items =>
    match stk with
    | [] => none
    | top :: rest => if (⟨n⟩ : String) = top then stackSim rest items else none

/- ===== Helper lemmas about the scan step ===== -/

theorem except_map_error {α β γ : Type} {f : α → β} {x : Except γ α} {e : γ}
    (h : x.map f = .error e) : x = .error e := by
  cases x <;> simp_all [Except.map]

theorem runSt_cons_chr {ts : List Theorem} {st : St} {c : Char} {items : List Item} :
    runSt ts st (.chr c :: items) = runSt ts { st with out := st.out ++ [c] } items := rfl

theorem runSt_cons_tok {ts : List Theorem} {st st2 : St} {t : Tok} {items : List Item}
    (h : step ts st t = .ok st2) :
    runSt ts st (.tok t :: items) = runSt ts st2 items := by
  simp [runSt, h]

theorem runSt_cons_tok_err {ts : List Theorem} {st : St} {t : Tok} {e : PErr}
    {items : List Item} (h : step ts st t = .error e) :
    runSt ts st (.tok t :: items) = .error e := by
  simp [runSt, h]

theorem step_beg_stack {ts : List Theorem} {st st2 : St} {gs : List (List Char)}
    (h : step ts st (.beg gs) = .ok st2) : st2.stack = beginEnvName gs :: st.stack := by
  simp only [step] at h
  cases hf : findTheorem ts (beginEnvName gs) with
  | some t =>
    rw [hf] at h
    simp at h
    rw [← h]
  | none =>
    rw [hf] at h
    simp at h
    split_ifs at h <;> simp at h <;> rw [← h]

theorem step_lab_stack {ts : List Theorem} {st st2 : St} {n : List Char}
    (h : step ts st (.lab n) = .ok st2) : st2.stack = st.stack := by
  simp only [step] at h
  cases hs : st.stack with
  | nil => rw [hs] at h; simp at h; rw [← h]
  | cons top rest =>
    rw [hs] at h
    simp at h
    split_ifs at h <;> simp at h <;> rw [← h]

theorem step_ref_stack {ts : List Theorem} {st st2 : St} {n : List Char}
    (h : step ts st (.ref n) = .ok st2) : st2.stack = st.stack := by
  simp only [step] at h
  cases hl : lookupT st.tlabels ⟨n⟩ with
  | some v => rw [hl] at h; simp at h; rw [← h]
  | none =>
    rw [hl] at h
    simp at h
    split_ifs at h <;> simp at h <;> rw [← h]

theorem step_fin_stack {ts : List Theorem} {st st2 : St} {n : List Char}
    (h : step ts st (.fin n) = .ok st2) :
    ∃ rest, st.stack = (⟨n⟩ : String) :: rest ∧ st2.stack = rest := by
  simp only [step] at h
  cases hs : st.stack with
  | nil => rw [hs] at h; simp at h
  | cons top rest =>
    rw [hs] at h
    simp at h
    split_ifs at h with h1 <;> simp at h <;>
      (subst h1; exact ⟨rest, rfl, by rw [← h]⟩)

/-- A successful scan pops exactly along the pure stack simulation. -/
theorem runSt_ok_stackSim {ts : List Theorem} :
    ∀ {items : List Item} {st st' : St}, runSt ts st items = .ok st' →
      stackSim st.stack items = some st'.stack := by
  intro items
  induction items with
  | nil => intro st st' h; cases h; rfl
  | cons it rest ih =>
    intro st st' h
    cases it with
    | chr c =>
      rw [runSt_cons_chr] at h
      simpa [stackSim] using ih h
    | tok t =>
      cases hs : step ts st t with
      | error e => rw [runSt_cons_tok_err hs] at h; cases h
      | ok st2 =>
        rw [runSt_cons_tok hs] at h
        cases t with
        | beg gs => simpa [stackSim, ← step_beg_stack hs] using ih h
        | lab n => simpa [stackSim, ← step_lab_stack hs] using ih h
        | ref n => simpa [stackSim, ← step_ref_stack hs] using ih h
        | fin n =>
          obtain ⟨r, hr1, hr2⟩ := step_fin_stack hs
          simpa [stackSim, hr1, hr2] using ih h

theorem runSt_append {ts : List Theorem} :
    ∀ {xs ys : List Item} {st : St},
      runSt ts st (xs ++ ys) =
        match runSt ts st xs with
        | .ok st2 => runSt ts st2 ys
        | .error e => .error e := by
  intro xs
  induction xs with
  | nil => intro ys st; rfl
  | cons it rest ih =>
    intro ys st
    cases it with
    | chr c => rw [List.cons_append, runSt_cons_chr, runSt_cons_chr, ih]
    | tok t =>
      cases hs : step ts st t with
      | error e => rw [List.cons_append, runSt_cons_tok_err hs, runSt_cons_tok_err hs]
      | ok st2 => rw [List.cons_append, runSt_cons_tok hs, runSt_cons_tok hs, ih]

/-- Claim C1 (confirmed): scanning `\end{b}` while the top of the environment
    stack is `a` with `a ≠ b` makes the scan return, immediately, the structural
    error naming both `a` and `b`; and a preprocess error makes the whole LaTeX
    conversion abort with exactly that error message, producing no output. -/
theorem env_mismatch_structural_error (ts : List Theorem) (st : St) (a b : String)
    (stk : List String) (items : List Item)
    (hstack : st.stack = a :: stk) (hne : a ≠ b) :
    runSt ts st (.tok (.fin b.data) :: items) = .error (.mismatch a b) ∧
    (PErr.mismatch a b).msg =
      "Mismatched environment tags: \\begin\x7b" ++ a ++ "\x7d and \\end\x7b" ++ b ++ "\x7d" ∧
    ∀ (render : String → ConvRes) (input : String),
      preprocess ts input = .error (.mismatch a b) →
      latex_to_html render ts input = .err ((PErr.mismatch a b).msg) := by
  have hb : (⟨b.data⟩ : String) = b := rfl
  refine ⟨?_, rfl, ?_⟩
  · have hstep : step ts st (.fin b.data) = .error (.mismatch a b) := by
      simp only [step, hstack, hb]
      rw [if_neg (fun hh => hne hh.symm)]
    exact runSt_cons_tok_err hstep
  · intro render input h
    have h2 : preprocessSt ts input = .error (.mismatch a b) := except_map_error h
    simp [latex_to_html, h2]

theorem env_mismatch_structural_error_witness :
    runSt [] initSt [Item.tok (.fin "x".data)] = .error (.mismatch "document" "x") ∧
    (PErr.mismatch "document" "x").msg =
      "Mismatched environment tags: \\begin\x7b" ++ "document" ++ "\x7d and \\end\x7b" ++ "x" ++ "\x7d" ∧
    ∀ (render : String → ConvRes) (input : String),
      preprocess [] input = .error (.mismatch "document" "x") →
      latex_to_html render [] input = .err ((PErr.mismatch "document" "x").msg) :=
  env_mismatch_structural_error [] initSt "document" "x" [] [] rfl (by decide)

/-- Claim C2 counterexample: an input consisting of a single unclosed
    `\begin{foo}` makes preprocess return `Ok` (output equal to the input),
    with `foo` still open on the final stack — the unmatched push is never
    detected, contradicting "an input with an unclosed `\begin{X}` cannot make
    preprocess return Ok". -/
theorem unclosed_begin_returns_ok :
    preprocess [] "\\begin\x7bfoo\x7d" = .ok "\\begin\x7bfoo\x7d" ∧
    preprocessSt [] "\\begin\x7bfoo\x7d" =
      .ok { counter := 0, stack := ["foo", "document"], tlabels := [], elabels := [],
            out := "\\begin\x7bfoo\x7d".data } := ⟨rfl, rfl⟩

/-- Claim C2 (amended): when preprocess succeeds, every executed `\end` pop
    matched the then-current top of the stack by name — the scan follows the
    pure stack simulation, whose final stack (unclosed `\begin` entries still
    open) is the scan's final stack. Unclosed environments are not detected. -/
theorem preprocess_ok_pops_match (ts : List Theorem) (input : String) (st' : St)
    (h : preprocessSt ts input = .ok st') :
    stackSim ["document"] (lex input.data) = some st'.stack :=
  runSt_ok_stackSim h

theorem preprocess_ok_pops_match_witness :
    stackSim ["document"] (lex "\\begin\x7ba\x7d\\end\x7ba\x7d".data) = some ["document"] :=
  preprocess_ok_pops_match [] "\\begin\x7ba\x7d\\end\x7ba\x7d"
    { counter := 0, stack := ["document"], tlabels := [], elabels := [],
      out := "\\begin\x7ba\x7d\\end\x7ba\x7d".data } (by rfl)

/-- Claim C3 (code bug): the environment stack CAN empty out during a scan — a
    matched `\end{document}` pops the seeded sentinel and succeeds — and at the
    next `\end` the code's `env_stack.pop().unwrap()` panics on the empty Vec
    (modelled by the `emptyPop` abort), refuting "the stack is never empty and
    the pop always succeeds, for any input". -/
theorem sentinel_pop_can_panic :
    preprocess [] "\\end\x7bdocument\x7d" = .ok "\\end\x7bdocument\x7d" ∧
    preprocess [] "\\end\x7bdocument\x7d\\end\x7bdocument\x7d" = .error .emptyPop :=
  ⟨rfl, rfl⟩

/- ===== Theorem counter bookkeeping (claim C4) ===== -/

/-- Counter weight of one match: 1 for the `\begin` of a registered numbered
    kind, 0 otherwise. -/
def cntTok (ts : List Theorem) : Tok → Nat
  | .beg gs =>
    match findTheorem ts (beginEnvName gs) with
    | some t => if t.numbered then 1 else 0
    | none => 0
  | _ => 0

def cntItem (ts : List Theorem) : Item → Nat
  | .chr _ => 0
  | .tok t => cntTok ts t

/-- Number of registered numbered-kind `\begin` occurrences in a scanned input. -/
def cntNumbered (ts : List Theorem) (items : List Item) : Nat :=
  (items.map (cntItem ts)).sum

theorem step_counter {ts : List Theorem} {st st2 : St} {tok : Tok}
    (h : step ts st tok = .ok st2) : st2.counter = st.counter + cntTok ts tok := by
  cases tok with
  | beg gs =>
    simp only [step] at h
    simp only [cntTok]
    cases hf : findTheorem ts (beginEnvName gs) with
    | some t =>
      rw [hf] at h
      simp at h
      cases hn : t.numbered <;> simp [hn] at h <;> rw [← h] <;> simp [hn]
    | none =>
      rw [hf] at h
      simp at h
      split_ifs at h <;> simp at h <;> rw [← h] <;> simp
  | lab n =>
    simp only [step] at h
    simp only [cntTok]
    cases hs : st.stack with
    | nil => rw [hs] at h; simp at h; rw [← h]; simp
    | cons top rest =>
      rw [hs] at h
      simp at h
      split_ifs at h <;> simp at h <;> rw [← h] <;> simp
  | ref n =>
    simp only [step] at h
    simp only [cntTok]
    cases hl : lookupT st.tlabels ⟨n⟩ with
    | some v => rw [hl] at h; simp at h; rw [← h]; simp
    | none =>
      rw [hl] at h
      simp at h
      split_ifs at h <;> simp at h <;> rw [← h] <;> simp
  | fin n =>
    simp only [step] at h
    simp only [cntTok]
    cases hs : st.stack with
    | nil => rw [hs] at h; simp at h
    | cons top rest =>
      rw [hs] at h
      simp at h
      split_ifs at h <;> simp at h <;> rw [← h] <;> simp

theorem runSt_counter {ts : List Theorem} :
    ∀ {items : List Item} {st st' : St}, runSt ts st items = .ok st' →
      st'.counter = st.counter + cntNumbered ts items := by
  intro items
  induction items with
  | nil => intro st st' h; cases h; simp [cntNumbered]
  | cons it rest ih =>
    intro st st' h
    cases it with
    | chr c =>
      rw [runSt_cons_chr] at h
      simpa [cntNumbered, cntItem] using ih h
    | tok t =>
      cases hs : step ts st t with
      | error e => rw [runSt_cons_tok_err hs] at h; cases h
      | ok st2 =>
        rw [runSt_cons_tok hs] at h
        have h1 := ih h
        have h2 := step_counter hs
        simp [cntNumbered, cntItem] at h1 ⊢
        omega

/-- Claim C4 (confirmed): at the `\begin` of a registered numbered kind the
    counter is incremented by exactly 1 and the emitted bold marker shows the
    new counter value (`\textbf{<label> <k>}. `); at the `\begin` of a
    registered unnumbered kind the counter is unchanged and the marker shows
    the bare display label; over any successful scan the counter grows by
    exactly the number of registered numbered-kind `\begin` occurrences, in
    document order, starting from 0 — so the k-th numbered occurrence emits k. -/
theorem numbered_counter_increments (ts : List Theorem) (st : St)
    (gs : List (List Char)) (t : Theorem)
    (hf : findTheorem ts (beginEnvName gs) = some t) :
    (t.numbered = true →
      step ts st (.beg gs) = .ok { st with
        stack := (beginEnvName gs :: st.stack),
        counter := st.counter + 1,
        out := st.out ++
          ("\\textbf\x7b".data ++ (t.label ++ " " ++ Nat.repr (st.counter + 1)).data
            ++ "\x7d. ".data) }) ∧
    (t.numbered = false →
      step ts st (.beg gs) = .ok { st with
        stack := (beginEnvName gs :: st.stack),
        out := st.out ++ ("\\textbf\x7b".data ++ t.label.data ++ "\x7d. ".data) }) ∧
    (∀ (items : List Item) (st0 st1 : St), runSt ts st0 items = .ok st1 →
      st1.counter = st0.counter + cntNumbered ts items) ∧
    initSt.counter = 0 := by
  refine ⟨?_, ?_, fun items st0 st1 h => runSt_counter h, rfl⟩
  · intro hn
    simp [step, hf, hn, markerChars, Theorem.labelFor]
  · intro hn
    simp [step, hf, hn, markerChars, Theorem.labelFor]

theorem numbered_counter_increments_witness :
    (step [⟨"theorem", "Theorem", true⟩] initSt (.beg ["theorem".data]) =
      .ok { initSt with
        stack := (beginEnvName ["theorem".data] :: initSt.stack),
        counter := initSt.counter + 1,
        out := initSt.out ++
          ("\\textbf\x7b".data ++ ("Theorem" ++ " " ++ Nat.repr (initSt.counter + 1)).data
            ++ "\x7d. ".data) }) ∧
    (runSt [⟨"theorem", "Theorem", true⟩] initSt
        [.tok (.beg ["theorem".data]), .tok (.beg ["theorem".data])] =
      .ok { counter := 2, stack := ["theorem", "theorem", "document"],
            tlabels := [], elabels := [],
            out := ("\\textbf\x7bTheorem 1\x7d. \\textbf\x7bTheorem 2\x7d. ").data } →
      (2 : Nat) = initSt.counter +
        cntNumbered [⟨"theorem", "Theorem", true⟩]
          [.tok (.beg ["theorem".data]), .tok (.beg ["theorem".data])]) := by
  have h := numbered_counter_increments [⟨"theorem", "Theorem", true⟩] initSt
    ["theorem".data] ⟨"theorem", "Theorem", true⟩ rfl
  exact ⟨h.1 rfl, fun hr => h.2.2.1 _ _ _ hr⟩

/- ===== Label recording and ref resolution (claims C5, C6) ===== -/

/-- Claim C5 counterexample: with a registered UNNUMBERED kind
    (`remark` / display label `Remark`), a `\label{r}` inside it records the
    counter text `"0"` — not the display label text `"Remark"` the claim
    requires — and the later `\ref{r}` displays `0`. -/
theorem unnumbered_label_records_counter_not_display :
    preprocess [⟨"remark", "Remark", false⟩]
        "\\begin\x7bremark\x7d\\label\x7br\x7d\\end\x7bremark\x7d\\ref\x7br\x7d"
      = .ok "\\textbf\x7bRemark\x7d. \\label\x7br\x7d\n\\href\x7b#r\x7d\x7b0\x7d" ∧
    preprocessSt [⟨"remark", "Remark", false⟩]
        "\\begin\x7bremark\x7d\\label\x7br\x7d\\end\x7bremark\x7d\\ref\x7br\x7d"
      = .ok { counter := 0, stack := ["document"], tlabels := [("r", "0")], elabels := [],
              out := "\\textbf\x7bRemark\x7d. \\label\x7br\x7d\n\\href\x7b#r\x7d\x7b0\x7d".data } ∧
    ("0" : String) ≠ "Remark" := ⟨rfl, rfl, by decide⟩

/-- Claim C5 (amended): a `\label{name}` scanned while the top of the stack is
    a registered theorem kind always records the CURRENT COUNTER TEXT as the
    label value — for numbered and unnumbered kinds alike (the display label is
    never recorded); a `\ref{name}` whose name has a recorded value emits a
    hyperlink `\href{#name}{value}` whose visible text is that recorded value. -/
theorem theorem_label_value_and_ref (ts : List Theorem) (st : St)
    (n : List Char) (env : String) (stk : List String) (t : Theorem)
    (hstack : st.stack = env :: stk) (hf : findTheorem ts env = some t) :
    step ts st (.lab n) = .ok { st with
      tlabels := (((⟨n⟩ : String), Nat.repr st.counter) :: st.tlabels),
      out := st.out ++ Tok.raw (.lab n) } ∧
    ∀ (m : List Char) (v : String), lookupT st.tlabels ⟨m⟩ = some v →
      step ts st (.ref m) = .ok { st with
        out := st.out ++ ("\\href\x7b#".data ++ m ++ "\x7d\x7b".data ++ v.data ++ ['\x7d']) } := by
  constructor
  · simp [step, hstack, hf]
  · intro m v hv
    simp [step, hv]

theorem theorem_label_value_and_ref_witness :
    step [⟨"remark", "Remark", false⟩]
        { counter := 0, stack := ["remark", "document"], tlabels := [("q", "7")],
          elabels := [], out := [] } (.lab "r".data) =
      .ok { counter := 0, stack := ["remark", "document"],
            tlabels := [("r", "0"), ("q", "7")], elabels := [],
            out := Tok.raw (.lab "r".data) } ∧
    step [⟨"remark", "Remark", false⟩]
        { counter := 0, stack := ["remark", "document"], tlabels := [("q", "7")],
          elabels := [], out := [] } (.ref "q".data) =
      .ok { counter := 0, stack := ["remark", "document"], tlabels := [("q", "7")],
            elabels := [], out := "\\href\x7b#q\x7d\x7b7\x7d".data } := by
  have h := theorem_label_value_and_ref [⟨"remark", "Remark", false⟩]
    { counter := 0, stack := ["remark", "document"], tlabels := [("q", "7")],
      elabels := [], out := [] } "r".data "remark" ["document"]
    ⟨"remark", "Remark", false⟩ rfl rfl
  refine ⟨?_, ?_⟩
  · have := h.1
    simpa using this
  · have := h.2 "q".data "7" rfl
    simpa using this

/-- Does this item carry a `\label{x}` match for the given name? -/
def mentionsLabel (x : String) : Item → Bool
  | .tok (.lab n) => n == x.data
  | _ => false

theorem step_preserves_unrecorded {ts : List Theorem} {st st2 : St} {tok : Tok}
    {x : String} (h : step ts st tok = .ok st2)
    (hn : ∀ n, tok = .lab n → (⟨n⟩ : String) ≠ x)
    (h1 : lookupT st.tlabels x = none) (h2 : st.elabels.contains x = false) :
    lookupT st2.tlabels x = none ∧ st2.elabels.contains x = false := by
  cases tok with
  | beg gs =>
    simp only [step] at h
    cases hf : findTheorem ts (beginEnvName gs) with
    | some t => rw [hf] at h; simp at h; rw [← h]; exact ⟨h1, h2⟩
    | none =>
      rw [hf] at h
      simp at h
      split_ifs at h <;> simp at h <;> rw [← h] <;> exact ⟨h1, h2⟩
  | lab n =>
    have hxn : (⟨n⟩ : String) ≠ x := hn n rfl
    simp only [step] at h
    cases hs : st.stack with
    | nil => rw [hs] at h; simp at h; rw [← h]; exact ⟨h1, h2⟩
    | cons top rest =>
      rw [hs] at h
      simp at h
      split_ifs at h <;> simp at h <;> rw [← h]
      · exact ⟨by simp [lookupT, hxn, h1], h2⟩
      · refine ⟨h1, ?_⟩
        have h2x : x ∉ st.elabels := by simpa using h2
        simp [h2x]
        exact fun hc => hxn hc.symm
      · exact ⟨h1, h2⟩
  | ref n =>
    simp only [step] at h
    cases hl : lookupT st.tlabels ⟨n⟩ with
    | some v => rw [hl] at h; simp at h; rw [← h]; exact ⟨h1, h2⟩
    | none =>
      rw [hl] at h
      simp at h
      split_ifs at h <;> simp at h <;> rw [← h] <;> exact ⟨h1, h2⟩
  | fin n =>
    simp only [step] at h
    cases hs : st.stack with
    | nil => rw [hs] at h; simp at h
    | cons top rest =>
      rw [hs] at h
      simp at h
      split_ifs at h <;> simp at h <;> rw [← h] <;> exact ⟨h1, h2⟩

theorem runSt_preserves_unrecorded {ts : List Theorem} {x : String} :
    ∀ {items : List Item} {st st' : St}, runSt ts st items = .ok st' →
      (∀ it ∈ items, mentionsLabel x it = false) →
      lookupT st.tlabels x = none → st.elabels.contains x = false →
      lookupT st'.tlabels x = none ∧ st'.elabels.contains x = false := by
  intro items
  induction items with
  | nil => intro st st' h _ h1 h2; cases h; exact ⟨h1, h2⟩
  | cons it rest ih =>
    intro st st' h hm h1 h2
    cases it with
    | chr c =>
      rw [runSt_cons_chr] at h
      exact ih h (fun i hi => hm i (List.mem_cons_of_mem _ hi)) h1 h2
    | tok t =>
      cases hs : step ts st t with
      | error e => rw [runSt_cons_tok_err hs] at h; cases h
      | ok st2 =>
        rw [runSt_cons_tok hs] at h
        have hlab : ∀ n, t = .lab n → (⟨n⟩ : String) ≠ x := by
          intro n ht hx
          have := hm (.tok t) (List.mem_cons_self _ _)
          rw [ht] at this
          simp [mentionsLabel] at this
          apply this
          have : (⟨n⟩ : String).data = x.data := by rw [hx]
          simpa using this
        obtain ⟨p1, p2⟩ := step_preserves_unrecorded hs hlab h1 h2
        exact ih h (fun i hi => hm i (List.mem_cons_of_mem _ hi)) p1 p2

/-- Claim C6 (confirmed): a `\ref{x}` scanned before any `\label{x}` (or with
    no `\label{x}` in the input at all) is emitted as the literal text
    `\ref{x}`, the scan state otherwise unchanged — it is never resolved into a
    theorem hyperlink or a deferred equation marker. -/
theorem ref_before_label_is_literal (ts : List Theorem) (x : String)
    (pre post : List Item) (st1 : St)
    (hpre : ∀ it ∈ pre, mentionsLabel x it = false)
    (hrun : runSt ts initSt pre = .ok st1) :
    runSt ts initSt (pre ++ .tok (.ref x.data) :: post) =
      runSt ts { st1 with out := st1.out ++ Tok.raw (.ref x.data) } post ∧
    Tok.raw (.ref x.data) = "\\ref\x7b".data ++ x.data ++ "\x7d".data := by
  obtain ⟨p1, p2⟩ := runSt_preserves_unrecorded hrun hpre rfl rfl
  have hx : (⟨x.data⟩ : String) = x := rfl
  have p2x : x ∉ st1.elabels := by simpa using p2
  have hstep : step ts st1 (.ref x.data) =
      .ok { st1 with out := st1.out ++ Tok.raw (.ref x.data) } := by
    simp [step, hx, p1, p2x]
  constructor
  · rw [runSt_append, hrun]
    dsimp only
    rw [runSt_cons_tok hstep]
  · rfl

theorem ref_before_label_is_literal_witness :
    runSt [] initSt ([.chr 'a'] ++ .tok (.ref "x".data) :: []) =
      runSt [] { initSt with out := initSt.out ++ ['a'] ++ Tok.raw (.ref "x".data) } [] ∧
    Tok.raw (.ref "x".data) = "\\ref\x7b".data ++ "x".data ++ "\x7d".data := by
  have h := ref_before_label_is_literal [] "x" [.chr 'a'] []
    { initSt with out := initSt.out ++ ['a'] } (by decide) rfl
  exact h

/- ===== Claim C8: math-handling flag ===== -/

/-- Claim C8 (code bug): the math-extraction condition in `markdown_to_html` is
    inverted relative to the flag's own documentation in src/config.rs ("If set
    to true, math blocks ... are left untouched ... and output verbatim",
    default false): at the DEFAULT flag value (false) math spans ARE extracted
    into placeholders and restored verbatim after the engine, while setting the
    flag to true disables extraction and leaves math to normal Markdown
    processing. -/
theorem math_flag_polarity_inverted :
    default_raw_math_blocks = false ∧
    mathPhase default_raw_math_blocks "$a_b$" =
      ("MATH_SEGMENT_PLACEHOLDER_0", ["$a_b$"]) ∧
    (∀ md : String, mathPhase true md = (md, [])) ∧
    mathPhase default_raw_math_blocks "x$$a_b$$y" =
      ("xMATH_SEGMENT_PLACEHOLDER_0y", ["$$a_b$$"]) ∧
    markdown_to_html id default_raw_math_blocks "$a_b$" = "$a_b$\n" :=
  ⟨rfl, rfl, fun _ => rfl, rfl, rfl⟩

/- ===== Claim C10: preprocessors without directives rebuild lines ===== -/

/-- The per-line rebuild both Markdown preprocessors perform in the absence of
    any fence line: every `str::lines` line re-emitted with exactly one `\n`. -/
def linesJoin (md : String) : String := ⟨joinNlL (rustLines md.data)⟩

theorem dropLit_append (p q cs : List Char) :
    dropLit (p ++ q) cs = (dropLit p cs).bind (dropLit q) := by
  induction p generalizing cs with
  | nil => rfl
  | cons x xs ih =>
    cases cs with
    | nil => rfl
    | cons c cs2 =>
      simp only [List.cons_append, dropLit]
      split_ifs <;> simp [ih]

theorem startsWithL_of_append {p q cs : List Char}
    (h : startsWithL p cs = false) : startsWithL (p ++ q) cs = false := by
  simp only [startsWithL, dropLit_append] at *
  cases hd : dropLit p cs with
  | none => simp
  | some r => rw [hd] at h; simp at h

theorem cardsF_nofence :
    ∀ (lines : List (List Char)), (∀ l ∈ lines, fenceLine l = false) →
      cardsF lines.length lines = joinNlL lines := by
  intro lines
  induction lines with
  | nil => intro _; rfl
  | cons line rest ih =>
    intro h
    have hline : startsWithL ":::card".data (trimStartL line) = false := by
      have : (":::card".data : List Char) = ":::".data ++ "card".data := rfl
      rw [this]
      exact startsWithL_of_append (h line (List.mem_cons_self _ _))
    simp only [List.length_cons, cardsF, hline, Bool.false_eq_true, if_false]
    rw [ih (fun l hl => h l (List.mem_cons_of_mem _ hl))]
    simp [joinNlL]

theorem expF_nofence :
    ∀ (lines : List (List Char)) (ctr : Nat), (∀ l ∈ lines, fenceLine l = false) →
      expF lines.length ctr lines = joinNlL lines := by
  intro lines
  induction lines with
  | nil => intro _ _; rfl
  | cons line rest ih =>
    intro ctr h
    have hline : startsWithL ":::expandable".data (trimStartL line) = false := by
      have : (":::expandable".data : List Char) = ":::".data ++ "expandable".data := rfl
      rw [this]
      exact startsWithL_of_append (h line (List.mem_cons_self _ _))
    simp only [List.length_cons, expF, hline, Bool.false_eq_true, if_false]
    rw [ih ctr (fun l hl => h l (List.mem_cons_of_mem _ hl))]
    simp [joinNlL]

/-- Claim C10 (confirmed): on input with no (whitespace-trimmed) `:::` line,
    both Markdown preprocessors re-emit every `str::lines` line followed by
    exactly one `\n` — so an input lacking a final newline gains one, a `\r` of
    a CRLF ending is dropped, and the preprocessors are not the byte-for-byte
    identity even with no directive present. -/
theorem preprocessors_rejoin_lines (md : String)
    (h : ∀ l ∈ rustLines md.data, fenceLine l = false) :
    preprocess_cards md = linesJoin md ∧
    preprocess_expandables md = linesJoin md ∧
    preprocess_cards "a" = "a\n" ∧
    preprocess_expandables "x\r\ny" = "x\ny\n" ∧
    ("a" : String) ≠ "a\n" := by
  refine ⟨?_, ?_, rfl, rfl, by decide⟩
  · show (⟨cardsF (rustLines md.data).length (rustLines md.data)⟩ : String) = _
    rw [cardsF_nofence _ h]
    rfl
  · show (⟨expF (rustLines md.data).length 0 (rustLines md.data)⟩ : String) = _
    rw [expF_nofence _ 0 h]
    rfl

theorem preprocessors_rejoin_lines_witness :
    preprocess_cards "x\r\ny" = linesJoin "x\r\ny" ∧
    preprocess_expandables "x\r\ny" = linesJoin "x\r\ny" ∧
    preprocess_cards "a" = "a\n" ∧
    preprocess_expandables "x\r\ny" = "x\ny\n" ∧
    ("a" : String) ≠ "a\n" :=
  preprocessors_rejoin_lines "x\r\ny" (by decide)

/- ===== Lexer soundness: matches reconstruct the input (claim C7) ===== -/

theorem dropLit_sound : ∀ {lit cs rest : List Char}, dropLit lit cs = some rest →
    cs = lit ++ rest := by
  intro lit
  induction lit with
  | nil => intro cs rest h; cases h; rfl
  | cons p ps ih =>
    intro cs rest h
    cases cs with
    | nil => exact Option.noConfusion h
    | cons c cs2 =>
      simp only [dropLit] at h
      split_ifs at h with hc
      rw [hc, List.cons_append, ih h]

theorem matchName_sound {p : Char → Bool} {cs n rest : List Char}
    (h : matchName p cs = some (n, rest)) : cs = n ++ '\x7d' :: rest ∧ n ≠ [] := by
  unfold matchName at h
  split at h
  next rest2 heq =>
    split_ifs at h with he
    cases h
    refine ⟨?_, by simpa using he⟩
    conv_lhs => rw [← List.takeWhile_append_dropWhile p cs]
    rw [heq]
  next => exact Option.noConfusion h

theorem matchGroup_sound {cs g rest : List Char} (h : matchGroup cs = some (g, rest)) :
    cs = groupRaw g ++ rest ∧ g ≠ [] := by
  unfold matchGroup at h
  split at h
  next cs2 =>
    split at h
    next rest2 heq =>
      split_ifs at h with he
      cases h
      refine ⟨?_, by simpa using he⟩
      have hsplit : cs2 = cs2.takeWhile (· != '\x7d') ++ '\x7d' :: rest := by
        conv_lhs => rw [← List.takeWhile_append_dropWhile (· != '\x7d') cs2]
        rw [heq]
      rw [groupRaw]
      conv_lhs => rw [hsplit]
      simp
    next => exact Option.noConfusion h
  next => exact Option.noConfusion h

theorem matchGroupsF_sound : ∀ {fuel : Nat} {cs rest : List Char} {gs : List (List Char)},
    matchGroupsF fuel cs = some (gs, rest) → cs = (gs.map groupRaw).flatten ++ rest := by
  intro fuel
  induction fuel with
  | zero => intro cs rest gs h; exact Option.noConfusion h
  | succ f ih =>
    intro cs rest gs h
    simp only [matchGroupsF] at h
    cases hg : matchGroup cs with
    | none => rw [hg] at h; exact Option.noConfusion h
    | some pr =>
      obtain ⟨g, r⟩ := pr
      rw [hg] at h
      simp only at h
      cases hgs : matchGroupsF f r with
      | some pr2 =>
        obtain ⟨gs2, rest2⟩ := pr2
        rw [hgs] at h
        cases h
        rw [(matchGroup_sound hg).1, ih hgs]
        simp
      | none =>
        rw [hgs] at h
        cases h
        rw [(matchGroup_sound hg).1]
        simp

theorem matchAt_sound : ∀ {cs rest : List Char} {t : Tok},
    matchAt cs = some (t, rest) → cs = t.raw ++ rest := by
  intro cs rest t h
  unfold matchAt at h
  cases h1 : dropLit litLabel cs with
  | some r1 =>
    rw [h1] at h
    simp only at h
    cases h2 : matchName isLabelChar r1 with
    | some pr =>
      obtain ⟨n, r2⟩ := pr
      rw [h2] at h
      cases h
      rw [dropLit_sound h1, (matchName_sound h2).1, Tok.raw]
      simp
    | none => rw [h2] at h; exact Option.noConfusion h
  | none =>
    rw [h1] at h
    simp only at h
    cases h1b : dropLit litRef cs with
    | some r1 =>
      rw [h1b] at h
      simp only at h
      cases h2 : matchName isLabelChar r1 with
      | some pr =>
        obtain ⟨n, r2⟩ := pr
        rw [h2] at h
        cases h
        rw [dropLit_sound h1b, (matchName_sound h2).1, Tok.raw]
        simp
      | none => rw [h2] at h; exact Option.noConfusion h
    | none =>
      rw [h1b] at h
      simp only at h
      cases h1c : dropLit litBegin cs with
      | some r1 =>
        rw [h1c] at h
        simp only at h
        cases h2 : matchGroupsF r1.length r1 with
        | some pr =>
          obtain ⟨gs, r2⟩ := pr
          rw [h2] at h
          cases h
          rw [dropLit_sound h1c, matchGroupsF_sound h2, Tok.raw]
          simp
        | none => rw [h2] at h; exact Option.noConfusion h
      | none =>
        rw [h1c] at h
        simp only at h
        cases h1d : dropLit litEnd cs with
        | some r1 =>
          rw [h1d] at h
          simp only at h
          cases h2 : matchName isWordChar r1 with
          | some pr =>
            obtain ⟨n, r2⟩ := pr
            rw [h2] at h
            cases h
            rw [dropLit_sound h1d, (matchName_sound h2).1, Tok.raw]
            simp
          | none => rw [h2] at h; exact Option.noConfusion h
        | none => rw [h1d] at h; exact Option.noConfusion h

theorem tokRaw_ne_nil (t : Tok) : t.raw ≠ [] := by
  cases t <;> simp [Tok.raw, litLabel, litRef, litBegin, litEnd]

theorem matchAt_consumes {cs rest : List Char} {t : Tok}
    (h : matchAt cs = some (t, rest)) : rest.length < cs.length := by
  have e := matchAt_sound h
  rw [e, List.length_append]
  have : 0 < t.raw.length := List.length_pos.mpr (tokRaw_ne_nil t)
  omega

theorem lexF_text : ∀ (fuel : Nat) (cs : List Char), cs.length ≤ fuel →
    itemsText (lexF fuel cs) = cs := by
  intro fuel
  induction fuel with
  | zero =>
    intro cs h
    rw [Nat.le_zero, List.length_eq_zero] at h
    subst h
    rfl
  | succ f ih =>
    intro cs h
    cases cs with
    | nil => rfl
    | cons c cs2 =>
      simp only [lexF]
      cases hm : matchAt (c :: cs2) with
      | some pr =>
        obtain ⟨t, rest⟩ := pr
        have hlt := matchAt_consumes hm
        have hle : rest.length ≤ f := by
          simp only [List.length_cons] at hlt h
          omega
        simp only [itemsText, List.map_cons, List.flatten_cons, itemText]
        rw [show (List.map itemText (lexF f rest)).flatten = itemsText (lexF f rest) from rfl,
          ih rest hle]
        exact (matchAt_sound hm).symm
      | none =>
        simp only [itemsText, List.map_cons, List.flatten_cons, itemText,
          List.singleton_append]
        rw [show (List.map itemText (lexF f cs2)).flatten = itemsText (lexF f cs2) from rfl,
          ih cs2 (by simp at h; omega)]

/-- The regex matches interleaved with the copied gaps reconstruct the input. -/
theorem lex_text (cs : List Char) : itemsText (lex cs) = cs := lexF_text _ _ le_rfl

/- ===== Claim C7: pure passthrough ===== -/

/-- Is this environment name treated specially by the filter: a registered
    theorem kind, `equation`, or a container (`problem`/`solution`)? -/
def envNameSpecial (ts : List Theorem) (n : String) : Bool :=
  (findTheorem ts n).isSome || n = "equation" || n = "problem" || n = "solution"

def tokSpecial (ts : List Theorem) : Tok → Bool
  | .beg gs => envNameSpecial ts (beginEnvName gs)
  | .fin n => envNameSpecial ts ⟨n⟩
  | _ => false

def itemSpecial (ts : List Theorem) : Item → Bool
  | .chr _ => false
  | .tok t => tokSpecial ts t

/-- The scanned input mentions no theorem, equation or container environment
    in any of its `\begin`/`\end` matches. -/
def noSpecialEnvs (ts : List Theorem) (input : String) : Bool :=
  (lex input.data).all fun it => !itemSpecial ts it

theorem envNameSpecial_false_parts {ts : List Theorem} {n : String}
    (h : envNameSpecial ts n = false) :
    findTheorem ts n = none ∧ ¬(n = "equation") ∧ ¬(n = "problem") ∧ ¬(n = "solution") := by
  simp [envNameSpecial] at h
  obtain ⟨⟨⟨h1, h2⟩, h3⟩, h4⟩ := h
  refine ⟨?_, h2, h3, h4⟩
  cases hft : findTheorem ts n with
  | none => rfl
  | some t => rw [hft] at h1; simp at h1

theorem runSt_passthrough {ts : List Theorem} :
    ∀ (items : List Item) (st : St) (stk' : List String),
      (∀ it ∈ items, itemSpecial ts it = false) →
      (∀ e ∈ st.stack, envNameSpecial ts e = false) →
      st.tlabels = [] → st.elabels = [] →
      stackSim st.stack items = some stk' →
      runSt ts st items = .ok { st with stack := stk', out := st.out ++ itemsText items } := by
  intro items
  induction items with
  | nil =>
    intro st stk' _ _ _ _ hsim
    simp [stackSim] at hsim
    subst hsim
    simp [runSt, itemsText]
  | cons it rest ih =>
    intro st stk' hsp hstk ht he hsim
    have hspRest : ∀ it2 ∈ rest, itemSpecial ts it2 = false :=
      fun i hi => hsp i (List.mem_cons_of_mem _ hi)
    cases it with
    | chr c =>
      rw [runSt_cons_chr]
      have hsim2 : stackSim st.stack rest = some stk' := by simpa [stackSim] using hsim
      rw [ih { st with out := st.out ++ [c] } stk' hspRest hstk ht he hsim2]
      simp [itemsText, itemText]
    | tok t =>
      have hts : tokSpecial ts t = false := by
        have := hsp (.tok t) (List.mem_cons_self _ _)
        simpa [itemSpecial] using this
      cases t with
      | beg gs =>
        have henv : envNameSpecial ts (beginEnvName gs) = false := hts
        obtain ⟨f1, f2, f3, f4⟩ := envNameSpecial_false_parts henv
        have hstep : step ts st (.beg gs) = .ok { st with
            stack := (beginEnvName gs :: st.stack),
            out := st.out ++ Tok.raw (.beg gs) } := by
          simp [step, f1, f2, f3, f4]
        rw [runSt_cons_tok hstep]
        have hsim2 : stackSim (beginEnvName gs :: st.stack) rest = some stk' := by
          simpa [stackSim] using hsim
        have hstk2 : ∀ e ∈ beginEnvName gs :: st.stack, envNameSpecial ts e = false := by
          intro e hem
          rcases List.mem_cons.mp hem with h1 | h1
          · rw [h1]; exact henv
          · exact hstk e h1
        rw [ih { st with stack := (beginEnvName gs :: st.stack), out := st.out ++ Tok.raw (.beg gs) } stk' hspRest hstk2 ht he hsim2]
        simp [itemsText, itemText]
      | lab n =>
        have hstep : step ts st (.lab n) = .ok { st with out := st.out ++ Tok.raw (.lab n) } := by
          cases hstack : st.stack with
          | nil => simp [step, hstack]
          | cons env r =>
            have henv : envNameSpecial ts env = false :=
              hstk env (by rw [hstack]; exact List.mem_cons_self _ _)
            obtain ⟨f1, f2, _, _⟩ := envNameSpecial_false_parts henv
            simp [step, hstack, f1, f2]
        rw [runSt_cons_tok hstep]
        have hsim2 : stackSim st.stack rest = some stk' := by simpa [stackSim] using hsim
        rw [ih { st with out := st.out ++ Tok.raw (.lab n) } stk' hspRest hstk ht he hsim2]
        simp [itemsText, itemText]
      | ref n =>
        have hstep : step ts st (.ref n) = .ok { st with out := st.out ++ Tok.raw (.ref n) } := by
          simp [step, ht, he, lookupT]
        rw [runSt_cons_tok hstep]
        have hsim2 : stackSim st.stack rest = some stk' := by simpa [stackSim] using hsim
        rw [ih { st with out := st.out ++ Tok.raw (.ref n) } stk' hspRest hstk ht he hsim2]
        simp [itemsText, itemText]
      | fin n =>
        cases hstack : st.stack with
        | nil => rw [hstack] at hsim; simp [stackSim] at hsim
        | cons top r =>
          rw [hstack] at hsim
          simp only [stackSim] at hsim
          split_ifs at hsim with htop
          have henv : envNameSpecial ts ((⟨n⟩ : String)) = false := by
            rw [htop]
            exact hstk top (by rw [hstack]; exact List.mem_cons_self _ _)
          obtain ⟨f1, f2, _, _⟩ := envNameSpecial_false_parts henv
          rw [htop] at f1 f2
          have hstep : step ts st (.fin n) = .ok { st with
              stack := r, out := st.out ++ Tok.raw (.fin n) } := by
            simp [step, hstack, htop, f1, f2]
          rw [runSt_cons_tok hstep]
          have hstk2 : ∀ e ∈ r, envNameSpecial ts e = false :=
            fun e hem => hstk e (by rw [hstack]; exact List.mem_cons_of_mem _ hem)
          rw [ih { st with stack := r, out := st.out ++ Tok.raw (.fin n) } stk' hspRest hstk2 ht he hsim]
          simp [itemsText, itemText]

/-- Claim C7 counterexample: the input `\end{a}` mentions no theorem, equation
    or container environment (no kinds are even registered), yet preprocess
    does not succeed with the input unchanged — it fails with a structural
    error against the sentinel. -/
theorem end_only_input_not_passthrough :
    noSpecialEnvs [] "\\end\x7ba\x7d" = true ∧
    preprocess [] "\\end\x7ba\x7d" = .error (.mismatch "document" "a") := ⟨rfl, rfl⟩

/-- Claim C7 (amended): preprocess is the byte-for-byte identity on inputs that
    mention no theorem/equation/container environment, PROVIDED the scan's
    begin/end matches are properly nested over the sentinel stack (the pure
    stack simulation succeeds) and `document` itself is not a registered kind;
    a stray or mismatched `\end` fails (or panics) even without special
    environments. -/
theorem preprocess_passthrough (ts : List Theorem) (input : String)
    (hdoc : envNameSpecial ts "document" = false)
    (hns : noSpecialEnvs ts input = true)
    (hbal : ∃ stk', stackSim ["document"] (lex input.data) = some stk') :
    preprocess ts input = .ok input := by
  obtain ⟨stk', hsim⟩ := hbal
  have hitems : ∀ it ∈ lex input.data, itemSpecial ts it = false := by
    intro it hi
    have := (List.all_eq_true.mp hns) it hi
    simpa using this
  have hstk : ∀ e ∈ initSt.stack, envNameSpecial ts e = false := by
    intro e hem
    simp [initSt] at hem
    rw [hem]
    exact hdoc
  have hrun := runSt_passthrough (lex input.data) initSt stk' hitems hstk rfl rfl hsim
  unfold preprocess preprocessSt
  rw [hrun]
  simp only [Except.map]
  have : initSt.out ++ itemsText (lex input.data) = input.data := by
    rw [show initSt.out = ([] : List Char) from rfl, List.nil_append, lex_text]
  rw [this]

theorem preprocess_passthrough_witness :
    preprocess [⟨"theorem", "Theorem", true⟩]
        "hi \\begin\x7bx\x7d\x7by\x7d \\label\x7bl\x7d \\ref\x7bl\x7d \\end\x7bx\x7d bye"
      = .ok "hi \\begin\x7bx\x7d\x7by\x7d \\label\x7bl\x7d \\ref\x7bl\x7d \\end\x7bx\x7d bye" :=
  preprocess_passthrough [⟨"theorem", "Theorem", true⟩]
    "hi \\begin\x7bx\x7d\x7by\x7d \\label\x7bl\x7d \\ref\x7bl\x7d \\end\x7bx\x7d bye"
    (by decide) (by decide) ⟨["document"], by decide⟩

/- ===== Claim C9: clean_labels is idempotent ===== -/

/-- Well-formedness of a span match: the two captures and the bracket text are
    nonempty runs of `[\w:-]` characters (guaranteed by the regex). -/
def SpanOk (sp : Span) : Prop :=
  sp.sid ≠ [] ∧ sp.slab ≠ [] ∧ sp.sbr ≠ [] ∧
  (∀ c ∈ sp.sid, isLabelChar c = true) ∧ (∀ c ∈ sp.slab, isLabelChar c = true) ∧
  (∀ c ∈ sp.sbr, isLabelChar c = true)

theorem dropLit_self (lit t : List Char) : dropLit lit (lit ++ t) = some t := by
  induction lit with
  | nil => rfl
  | cons p ps ih => simp [dropLit, ih]

theorem takeWhile_append_stop (p : Char → Bool) (n : List Char) (x : Char) (t : List Char)
    (hall : ∀ c ∈ n, p c = true) (hx : p x = false) :
    (n ++ x :: t).takeWhile p = n ∧ (n ++ x :: t).dropWhile p = x :: t := by
  induction n with
  | nil => simp [List.takeWhile_cons, List.dropWhile_cons, hx]
  | cons c n2 ih =>
    have hc : p c = true := hall c (List.mem_cons_self _ _)
    have ih2 := ih fun d hd => hall d (List.mem_cons_of_mem _ hd)
    simp [List.takeWhile_cons, List.dropWhile_cons, hc, ih2.1, ih2.2]

theorem takeName_sound {p : Char → Bool} {lit cs n rest : List Char}
    (h : takeName p lit cs = some (n, rest)) :
    cs = n ++ (lit ++ rest) ∧ n ≠ [] ∧ (∀ c ∈ n, p c = true) := by
  unfold takeName at h
  split_ifs at h with he
  cases hd : dropLit lit (cs.dropWhile p) with
  | none => rw [hd] at h; exact Option.noConfusion h
  | some r =>
    rw [hd] at h
    simp only at h
    cases h
    refine ⟨?_, by simpa using he, fun c hc => List.mem_takeWhile_imp hc⟩
    conv_lhs => rw [← List.takeWhile_append_dropWhile p cs]
    rw [dropLit_sound hd]

theorem takeName_complete {p : Char → Bool} {n t : List Char} {l0 : Char} {lit2 : List Char}
    (hn : n ≠ []) (hall : ∀ c ∈ n, p c = true) (hp : p l0 = false) :
    takeName p (l0 :: lit2) (n ++ ((l0 :: lit2) ++ t)) = some (n, t) := by
  have hs := takeWhile_append_stop p n l0 (lit2 ++ t) hall hp
  unfold takeName
  rw [show n ++ ((l0 :: lit2) ++ t) = n ++ l0 :: (lit2 ++ t) from by simp]
  rw [hs.1, hs.2]
  rw [if_neg (by simpa using hn)]
  rw [show (l0 :: (lit2 ++ t) : List Char) = (l0 :: lit2) ++ t from by simp]
  rw [dropLit_self]

theorem matchSpan_sound {cs rest : List Char} {sp : Span}
    (h : matchSpan cs = some (sp, rest)) : cs = spanRaw sp ++ rest ∧ SpanOk sp := by
  unfold matchSpan at h
  cases h1 : dropLit litSpanId cs with
  | none => rw [h1] at h; exact Option.noConfusion h
  | some r1 =>
    rw [h1] at h
    simp only at h
    cases h2 : takeName isLabelChar litSpanLabel r1 with
    | none => rw [h2] at h; exact Option.noConfusion h
    | some pr2 =>
      obtain ⟨i, r2⟩ := pr2
      rw [h2] at h
      simp only at h
      cases h3 : takeName isLabelChar litSpanMid r2 with
      | none => rw [h3] at h; exact Option.noConfusion h
      | some pr3 =>
        obtain ⟨l, r3⟩ := pr3
        rw [h3] at h
        simp only at h
        cases h4 : takeName isLabelChar litSpanClose r3 with
        | none => rw [h4] at h; exact Option.noConfusion h
        | some pr4 =>
          obtain ⟨b, r4⟩ := pr4
          rw [h4] at h
          simp only at h
          cases h
          obtain ⟨e2, ne2, all2⟩ := takeName_sound h2
          obtain ⟨e3, ne3, all3⟩ := takeName_sound h3
          obtain ⟨e4, ne4, all4⟩ := takeName_sound h4
          refine ⟨?_, ne2, ne3, ne4, all2, all3, all4⟩
          rw [dropLit_sound h1, e2, e3, e4, spanRaw]
          simp

theorem matchSpan_complete {t : List Char} {sp : Span} (hok : SpanOk sp) :
    matchSpan (spanRaw sp ++ t) = some (sp, t) := by
  obtain ⟨ne1, ne2, ne3, all1, all2, all3⟩ := hok
  unfold matchSpan
  rw [show (litSpanLabel : List Char) = '\"' :: " label=\"".data from rfl,
      show (litSpanMid : List Char) = '\"' :: ">[".data from rfl,
      show (litSpanClose : List Char) = ']' :: "</span>".data from rfl]
  rw [show spanRaw sp ++ t =
    litSpanId ++ (sp.sid ++ (('\"' :: " label=\"".data) ++ (sp.slab ++ (('\"' :: ">[".data) ++ (sp.sbr ++ ((']' :: "</span>".data) ++ t))))))
    from by rw [spanRaw]; simp [litSpanLabel, litSpanMid, litSpanClose]]
  rw [dropLit_self]
  simp only
  rw [takeName_complete ne1 all1 (by decide)]
  simp only
  rw [takeName_complete ne2 all2 (by decide)]
  simp only
  rw [takeName_complete ne3 all3 (by decide)]

/-- No `<` occurs in this character list. -/
abbrev noLt (xs : List Char) : Prop := ∀ c ∈ xs, ¬ c = '<'

theorem isLabelChar_ne_lt {c : Char} (h : isLabelChar c = true) : ¬ c = '<' := by
  intro hc
  subst hc
  exact absurd h (by decide)

theorem noLt_append {a b : List Char} (ha : noLt a) (hb : noLt b) : noLt (a ++ b) := by
  intro c hc
  rcases List.mem_append.mp hc with h | h
  · exact ha c h
  · exact hb c h

/-- The part of a raw span between its two `<` characters. -/
def spanMidPart (sp : Span) : List Char :=
  "span id=\"".data ++ (sp.sid ++ ("\" label=\"".data ++ (sp.slab ++ ("\">[".data ++ (sp.sbr ++ [']'])))))

theorem spanRaw_decomp (sp : Span) :
    spanRaw sp = '<' :: (spanMidPart sp ++ ('<' :: "/span>".data)) := by
  rw [spanRaw, spanMidPart]
  rw [show (litSpanId : List Char) = '<' :: "span id=\"".data from rfl,
      show (litSpanLabel : List Char) = "\" label=\"".data from rfl,
      show (litSpanMid : List Char) = "\">[".data from rfl,
      show (litSpanClose : List Char) = [']'] ++ '<' :: "/span>".data from rfl]
  simp

theorem spanMidPart_noLt {sp : Span} (hok : SpanOk sp) : noLt (spanMidPart sp) := by
  obtain ⟨_, _, _, all1, all2, all3⟩ := hok
  rw [spanMidPart]
  refine noLt_append (by decide) (noLt_append ?_ (noLt_append (by decide)
    (noLt_append ?_ (noLt_append (by decide) (noLt_append ?_ (by decide))))))
  · exact fun c hc => isLabelChar_ne_lt (all1 c hc)
  · exact fun c hc => isLabelChar_ne_lt (all2 c hc)
  · exact fun c hc => isLabelChar_ne_lt (all3 c hc)

/-- The part of a cleaned span between its two `<` characters. -/
def spanCleanedMid (sp : Span) : List Char :=
  "span id=\"".data ++ (sp.sid ++ ("\" label=\"".data ++ (sp.slab ++ ['\"', '>'])))

theorem spanCleaned_decomp (sp : Span) :
    spanCleaned sp = '<' :: (spanCleanedMid sp ++ ('<' :: "/span>".data)) := by
  rw [spanCleaned, spanCleanedMid]
  rw [show (litSpanId : List Char) = '<' :: "span id=\"".data from rfl,
      show (litSpanLabel : List Char) = "\" label=\"".data from rfl,
      show ("\"></span>".data : List Char) = ['\"', '>'] ++ '<' :: "/span>".data from rfl]
  simp

theorem spanCleanedMid_noLt {sp : Span} (hok : SpanOk sp) : noLt (spanCleanedMid sp) := by
  obtain ⟨_, _, _, all1, all2, _⟩ := hok
  rw [spanCleanedMid]
  refine noLt_append (by decide) (noLt_append ?_ (noLt_append (by decide)
    (noLt_append ?_ (by decide))))
  · exact fun c hc => isLabelChar_ne_lt (all1 c hc)
  · exact fun c hc => isLabelChar_ne_lt (all2 c hc)

theorem matchSpan_not_lt {c : Char} {t : List Char} (h : ¬ c = '<') :
    matchSpan (c :: t) = none := by
  unfold matchSpan
  rw [show (litSpanId : List Char) = '<' :: "span id=\"".data from rfl]
  rw [show dropLit ('<' :: "span id=\"".data) (c :: t) = none from by simp [dropLit, h]]

theorem matchSpan_slash_none {t : List Char} : matchSpan ('<' :: ("/span>".data ++ t)) = none := by
  unfold matchSpan
  rw [show dropLit litSpanId ('<' :: ("/span>".data ++ t)) = none from rfl]

theorem matchSpan_cleaned_none {t : List Char} {sp : Span} (hok : SpanOk sp) :
    matchSpan (spanCleaned sp ++ t) = none := by
  obtain ⟨ne1, ne2, _, all1, all2, _⟩ := hok
  unfold matchSpan
  rw [show (litSpanLabel : List Char) = '\"' :: " label=\"".data from rfl,
      show (litSpanMid : List Char) = '\"' :: ">[".data from rfl]
  rw [show spanCleaned sp ++ t =
    litSpanId ++ (sp.sid ++ (('\"' :: " label=\"".data) ++ (sp.slab ++ ('\"' :: ("></span>".data ++ t)))))
    from by rw [spanCleaned]; rw [show (litSpanLabel : List Char) = '\"' :: " label=\"".data from rfl, show ("\"></span>".data : List Char) = '\"' :: "></span>".data from rfl]; simp [litSpanId]]
  rw [dropLit_self]
  simp only
  rw [takeName_complete ne1 all1 (by decide)]
  simp only
  rw [show takeName isLabelChar ('\"' :: ">[".data) (sp.slab ++ ('\"' :: ("></span>".data ++ t))) = none from ?_]
  · have hs := takeWhile_append_stop isLabelChar sp.slab '\"' ("></span>".data ++ t)
      all2 (by decide)
    unfold takeName
    rw [hs.1, hs.2, if_neg (by simpa using ne2)]
    rw [show dropLit ('\"' :: ">[".data) ('\"' :: ("></span>".data ++ t)) = none from rfl]

theorem spanRaw_ne_nil (sp : Span) : spanRaw sp ≠ [] := by
  rw [spanRaw_decomp]
  simp

theorem matchSpan_consumes {cs rest : List Char} {sp : Span}
    (h : matchSpan cs = some (sp, rest)) : rest.length < cs.length := by
  obtain ⟨e, _⟩ := matchSpan_sound h
  rw [e, List.length_append]
  have : 0 < (spanRaw sp).length := List.length_pos.mpr (spanRaw_ne_nil sp)
  omega

theorem cleanF_fuel (labels : List String) :
    ∀ (f1 f2 : Nat) (cs : List Char), cs.length ≤ f1 → cs.length ≤ f2 →
      cleanF labels f1 cs = cleanF labels f2 cs := by
  intro f1
  induction f1 with
  | zero =>
    intro f2 cs h1 h2
    rw [Nat.le_zero, List.length_eq_zero] at h1
    subst h1
    cases f2 <;> rfl
  | succ f ih =>
    intro f2 cs h1 h2
    cases cs with
    | nil => cases f2 <;> rfl
    | cons c cs2 =>
      cases f2 with
      | zero => simp at h2
      | succ f2b =>
        simp only [cleanF]
        cases hm : matchSpan (c :: cs2) with
        | some pr =>
          obtain ⟨sp, rest⟩ := pr
          have hc := matchSpan_consumes hm
          simp only [List.length_cons] at h1 h2 hc
          dsimp only
          rw [ih f2b rest (by omega) (by omega)]
        | none =>
          simp only [List.length_cons] at h1 h2
          dsimp only
          rw [ih f2b cs2 (by omega) (by omega)]

theorem cleanL_cons_nomatch {labels : List String} {c : Char} {cs2 : List Char}
    (h : matchSpan (c :: cs2) = none) :
    cleanL labels (c :: cs2) = c :: cleanL labels cs2 := by
  unfold cleanL
  simp only [List.length_cons, cleanF, h]

theorem cleanL_match {labels : List String} {cs rest : List Char} {sp : Span}
    (h : matchSpan cs = some (sp, rest)) :
    cleanL labels cs =
      (if labels.contains (⟨sp.sid⟩ : String) then spanCleaned sp else spanRaw sp)
        ++ cleanL labels rest := by
  cases hcs : cs with
  | nil =>
    rw [hcs] at h
    rw [show matchSpan ([] : List Char) = none from rfl] at h
    exact Option.noConfusion h
  | cons c cs2 =>
    subst hcs
    unfold cleanL
    simp only [List.length_cons, cleanF, h]
    have hc := matchSpan_consumes h
    simp only [List.length_cons] at hc
    rw [cleanF_fuel labels cs2.length rest.length rest (by omega) le_rfl]

theorem cleanL_append_noLt {labels : List String} :
    ∀ {xs t : List Char}, noLt xs → cleanL labels (xs ++ t) = xs ++ cleanL labels t := by
  intro xs
  induction xs with
  | nil => intro t _; simp
  | cons x xs2 ih =>
    intro t hx
    have hnm : matchSpan (x :: (xs2 ++ t)) = none :=
      matchSpan_not_lt (hx x (List.mem_cons_self _ _))
    rw [List.cons_append, cleanL_cons_nomatch hnm,
      ih (fun c hc => hx c (List.mem_cons_of_mem _ hc))]
    rfl

theorem sfx_inner : ∀ (pre2 M : List Char) {a F : List Char},
    pre2 ++ a = M ++ '<' :: F → a.head? = some '<' → noLt M → noLt F →
    a = '<' :: F := by
  intro pre2
  induction pre2 with
  | nil =>
    intro M a F heq hh hM hF
    cases M with
    | nil => simpa using heq
    | cons m M2 =>
      rw [List.nil_append] at heq
      subst heq
      simp at hh
      exact absurd hh (hM m (List.mem_cons_self _ _))
  | cons q pre3 ih =>
    intro M a F heq hh hM hF
    cases M with
    | nil =>
      rw [List.nil_append, List.cons_append] at heq
      injection heq with h1 h2
      cases a with
      | nil => simp at hh
      | cons a0 a2 =>
        simp at hh
        subst hh
        have hmem : '<' ∈ F := by
          rw [← h2]
          exact List.mem_append_right _ (List.mem_cons_self _ _)
        exact absurd rfl (hF '<' hmem)
    | cons m M2 =>
      rw [List.cons_append, List.cons_append] at heq
      injection heq with h1 h2
      exact ih M2 h2 hh (fun c hc => hM c (List.mem_cons_of_mem _ hc)) hF

theorem sfx_outer (pre : List Char) {a M F : List Char}
    (heq : pre ++ a = '<' :: (M ++ '<' :: F)) (hh : a.head? = some '<')
    (hM : noLt M) (hF : noLt F) :
    (pre = [] ∧ a = '<' :: (M ++ '<' :: F)) ∨ a = '<' :: F := by
  cases pre with
  | nil => exact Or.inl ⟨rfl, by simpa using heq⟩
  | cons p pre2 =>
    rw [List.cons_append] at heq
    injection heq with h1 h2
    exact Or.inr (sfx_inner pre2 M h2 hh hM hF)

/-- Replacing one raw span by its cleaned form cannot create a match that was
    not already there: if no match starts at the head of `pre ++ raw ++ rest`,
    none starts at the head of `pre ++ cleaned ++ rest`. -/
theorem matchSpan_swap_none {pre rest : List Char} {sp : Span} (hok : SpanOk sp)
    (h : matchSpan (pre ++ (spanRaw sp ++ rest)) = none) :
    matchSpan (pre ++ (spanCleaned sp ++ rest)) = none := by
  cases hm : matchSpan (pre ++ (spanCleaned sp ++ rest)) with
  | none => rfl
  | some pr =>
    exfalso
    obtain ⟨sp2, rest2⟩ := pr
    obtain ⟨e, hok2⟩ := matchSpan_sound hm
    rcases List.append_eq_append_iff.mp e with ⟨a2, ha1, ha2⟩ | ⟨c2, hc1, _⟩
    · cases ha0 : a2 with
      | nil =>
        rw [ha0, List.append_nil] at ha1
        have hcontra : matchSpan (pre ++ (spanRaw sp ++ rest)) =
            some (sp2, spanRaw sp ++ rest) := by
          rw [← ha1]
          exact matchSpan_complete hok2
        rw [hcontra] at h
        exact Option.noConfusion h
      | cons a0 a3 =>
        subst ha0
        have hh : (a0 :: a3).head? = some '<' := by
          rw [spanCleaned_decomp] at ha2
          rw [show ('<' :: (spanCleanedMid sp ++ ('<' :: "/span>".data))) ++ rest
              = '<' :: ((spanCleanedMid sp ++ ('<' :: "/span>".data)) ++ rest) from rfl,
            List.cons_append] at ha2
          injection ha2 with hx _
          rw [← hx]
          rfl
        rw [spanRaw_decomp] at ha1
        rcases sfx_outer pre ha1.symm hh (spanMidPart_noLt hok2) (by decide) with
          ⟨hpre, _⟩ | ha
        · rw [hpre, List.nil_append] at hm
          rw [matchSpan_cleaned_none hok] at hm
          exact Option.noConfusion hm
        · rw [ha] at ha2
          rw [spanCleaned_decomp] at ha2
          rw [show ('<' :: (spanCleanedMid sp ++ ('<' :: "/span>".data))) ++ rest
              = '<' :: ((spanCleanedMid sp ++ ('<' :: "/span>".data)) ++ rest) from rfl,
            List.cons_append] at ha2
          injection ha2 with _ hy
          have hL : ((spanCleanedMid sp ++ ('<' :: "/span>".data)) ++ rest).head? = some 's' := by
            rw [spanCleanedMid]
            rfl
          rw [hy] at hL
          simp at hL
    · have hcontra : matchSpan (pre ++ (spanRaw sp ++ rest)) =
          some (sp2, c2 ++ (spanRaw sp ++ rest)) := by
        rw [hc1, List.append_assoc]
        exact matchSpan_complete hok2
      rw [hcontra] at h
      exact Option.noConfusion h

/-- Cleaning a suffix cannot create a new match at an unchanged position. -/
theorem matchSpan_none_cleanL {labels : List String} :
    ∀ (n : Nat) (cs : List Char), cs.length ≤ n → ∀ (pre : List Char),
      matchSpan (pre ++ cs) = none → matchSpan (pre ++ cleanL labels cs) = none := by
  intro n
  induction n with
  | zero =>
    intro cs h pre hm
    rw [Nat.le_zero, List.length_eq_zero] at h
    subst h
    exact hm
  | succ n ih =>
    intro cs h pre hm
    cases cs with
    | nil => exact hm
    | cons c cs2 =>
      cases hms : matchSpan (c :: cs2) with
      | none =>
        rw [cleanL_cons_nomatch hms]
        have h2 : matchSpan ((pre ++ [c]) ++ cs2) = none := by
          rw [List.append_assoc]
          exact hm
        have h3 := ih cs2 (by simp at h; omega) (pre ++ [c]) h2
        rw [List.append_assoc] at h3
        exact h3
      | some pr =>
        obtain ⟨sp, rest⟩ := pr
        obtain ⟨e, hok⟩ := matchSpan_sound hms
        rw [cleanL_match hms]
        have hlen : rest.length ≤ n := by
          have := matchSpan_consumes hms
          simp at h this
          omega
        by_cases hin : labels.contains (⟨sp.sid⟩ : String) = true
        · rw [if_pos hin]
          have hswap : matchSpan (pre ++ (spanCleaned sp ++ rest)) = none := by
            apply matchSpan_swap_none hok
            rw [← e]
            exact hm
          have h2 : matchSpan ((pre ++ spanCleaned sp) ++ rest) = none := by
            rw [List.append_assoc]
            exact hswap
          have h3 := ih rest hlen (pre ++ spanCleaned sp) h2
          rw [List.append_assoc] at h3
          exact h3
        · rw [if_neg hin]
          have h2 : matchSpan ((pre ++ spanRaw sp) ++ rest) = none := by
            rw [List.append_assoc, ← e]
            exact hm
          have h3 := ih rest hlen (pre ++ spanRaw sp) h2
          rw [List.append_assoc] at h3
          exact h3

theorem cleanL_idem (labels : List String) :
    ∀ (n : Nat) (cs : List Char), cs.length ≤ n →
      cleanL labels (cleanL labels cs) = cleanL labels cs := by
  intro n
  induction n with
  | zero =>
    intro cs h
    rw [Nat.le_zero, List.length_eq_zero] at h
    subst h
    rfl
  | succ n ih =>
    intro cs h
    cases cs with
    | nil => rfl
    | cons c cs2 =>
      cases hms : matchSpan (c :: cs2) with
      | none =>
        rw [cleanL_cons_nomatch hms]
        have hnone : matchSpan ([c] ++ cleanL labels cs2) = none := by
          apply matchSpan_none_cleanL cs2.length cs2 le_rfl [c]
          exact hms
        rw [cleanL_cons_nomatch (show matchSpan (c :: cleanL labels cs2) = none from hnone)]
        rw [ih cs2 (by simp at h; omega)]
      | some pr =>
        obtain ⟨sp, rest⟩ := pr
        obtain ⟨e, hok⟩ := matchSpan_sound hms
        have hlen : rest.length ≤ n := by
          have := matchSpan_consumes hms
          simp at h this
          omega
        rw [cleanL_match hms]
        by_cases hin : labels.contains (⟨sp.sid⟩ : String) = true
        · rw [if_pos hin]
          have hn1 : matchSpan (spanCleaned sp ++ cleanL labels rest) = none :=
            matchSpan_cleaned_none hok
          rw [spanCleaned_decomp] at hn1 ⊢
          rw [show ('<' :: (spanCleanedMid sp ++ ('<' :: "/span>".data))) ++ cleanL labels rest
              = '<' :: ((spanCleanedMid sp ++ ('<' :: "/span>".data)) ++ cleanL labels rest)
              from rfl] at hn1 ⊢
          rw [cleanL_cons_nomatch hn1]
          rw [show (spanCleanedMid sp ++ ('<' :: "/span>".data)) ++ cleanL labels rest
              = spanCleanedMid sp ++ (('<' :: "/span>".data) ++ cleanL labels rest) from by simp]
          rw [cleanL_append_noLt (spanCleanedMid_noLt hok)]
          rw [show (('<' : Char) :: "/span>".data) ++ cleanL labels rest
              = '<' :: ("/span>".data ++ cleanL labels rest) from rfl]
          rw [cleanL_cons_nomatch matchSpan_slash_none]
          rw [cleanL_append_noLt (by decide : noLt "/span>".data)]
          rw [ih rest hlen]
        · rw [if_neg hin]
          rw [cleanL_match (matchSpan_complete hok)]
          rw [if_neg hin]
          rw [ih rest hlen]

/-- Claim C9 (confirmed): the postprocess label-cleanup step is idempotent —
    for every HTML string and every set of recorded theorem labels, applying
    `clean_labels` a second time changes nothing. -/
theorem clean_labels_idempotent (labels : List String) (h : String) :
    clean_labels labels (clean_labels labels h) = clean_labels labels h := by
  unfold clean_labels
  have := cleanL_idem labels h.data.length h.data le_rfl
  exact congrArg String.mk this

end Ssg
